import Mathlib

/- A shallow embedding of the union-find structure `MyDisjointSet` from
src/union-find.py, together with a verification of the specified properties.

The Python class keeps two dictionaries: `__HM__` (element to parent) and
`__size__` (element to subset size).  We model a dictionary over keys of
type `Nat` as the (insertion-ordered) list of its keys together with a
total function giving the stored values; values outside the key list are
irrelevant junk that no operation ever reads or writes.  Each Python method
that can mutate the object is modelled as a function from the state to a
pair of the new state and the returned value; a raised `KeyError x` is
modelled as `Except.error x`, and the state component of the result is the
state at the moment the exception propagates (Python objects keep
mutations performed before a raise). -/

namespace UnionFindSpec

/-- The while loop of `MyDisjointSet.__getitem__` (path halving):
`while parent != HM[parent]: HM[parent] = HM[HM[parent]]; parent = HM[parent]`.
The loop is given as structural recursion on a fuel parameter; the
termination theorems below show that fuel `keys.length` always suffices on
states satisfying the data-structure invariant, so on such states the
embedding agrees with the unbounded Python loop. -/
def findAux : Nat → (Nat → Nat) → Nat → ((Nat → Nat) × Nat)
  | 0, pm, p => (pm, p)
  | fuel + 1, pm, p =>
    if pm p = p then (pm, p)
    else
      let pm' := Function.update pm p (pm (pm p))
      findAux fuel pm' (pm' p)

/-- The nodes visited by the `__getitem__` loop, in order: exactly the nodes
whose `parent` entry the loop reads as the current `parent` variable. -/
def findVisited : Nat → (Nat → Nat) → Nat → List Nat
  | 0, _, _ => []
  | fuel + 1, pm, p =>
    if pm p = p then [p]
    else
      let pm' := Function.update pm p (pm (pm p))
      p :: findVisited fuel pm' (pm' p)

/-- The state of `MyDisjointSet`: the key set of the backing dictionaries
(in insertion order; `__HM__` and `__size__` always have the same keys),
the parent map `__HM__` and the size map `__size__`. -/
structure MyDisjointSet where
  keys : List Nat
  HM : Nat → Nat
  size : Nat → Nat

/-- `MyDisjointSet.__init__`: both dictionaries empty. -/
def MyDisjointSet.empty : MyDisjointSet := ⟨[], id, fun _ => 0⟩

/-- `MyDisjointSet.__getitem__(x)`: raise `KeyError x` if `x` is untracked,
otherwise run the path-halving loop and return the reached fixed point. -/
def MyDisjointSet.getitem (s : MyDisjointSet) (x : Nat) :
    MyDisjointSet × Except Nat Nat :=
  if x ∈ s.keys then
    let r := findAux s.keys.length s.HM x
    (⟨s.keys, r.1, s.size⟩, Except.ok r.2)
  else (s, Except.error x)

/-- `MyDisjointSet.add(x)`: if `x` is tracked, plain `return` (Python
`None`, modelled as `none`); otherwise set `HM[x] = x`, `size[x] = 1` and
return `HM[x]`. -/
def MyDisjointSet.add (s : MyDisjointSet) (x : Nat) :
    MyDisjointSet × Option Nat :=
  if x ∈ s.keys then (s, none)
  else
    let HM' := Function.update s.HM x x
    (⟨s.keys ++ [x], HM', Function.update s.size x 1⟩, some (HM' x))

/-- `MyDisjointSet.merge(x, y)`: find both roots (each find may raise and
may compress), read both sizes, then attach the smaller root under the
larger, with ties attaching `x`'s root under `y`'s root. -/
def MyDisjointSet.merge (s : MyDisjointSet) (x y : Nat) :
    MyDisjointSet × Except Nat Unit :=
  match s.getitem x with
  | (s1, Except.error e) => (s1, Except.error e)
  | (s1, Except.ok px) =>
    match s1.getitem y with
    | (s2, Except.error e) => (s2, Except.error e)
    | (s2, Except.ok py) =>
      let sx := s2.size px
      let sy := s2.size py
      if sx > sy then
        (⟨s2.keys, Function.update s2.HM py px,
          Function.update s2.size px (sx + sy)⟩, Except.ok ())
      else
        (⟨s2.keys, Function.update s2.HM px py,
          Function.update s2.size py (sx + sy)⟩, Except.ok ())

/-- `MyDisjointSet.connected(x, y)`: `__getitem__(x) == __getitem__(y)`. -/
def MyDisjointSet.connected (s : MyDisjointSet) (x y : Nat) :
    MyDisjointSet × Except Nat Bool :=
  match s.getitem x with
  | (s1, Except.error e) => (s1, Except.error e)
  | (s1, Except.ok px) =>
    match s1.getitem y with
    | (s2, Except.error e) => (s2, Except.error e)
    | (s2, Except.ok py) => (s2, Except.ok (decide (px = py)))

/-- The loop of `MyDisjointSet.subset(x)`: for each tracked element `e`,
resolve its root and append `e` to the result when it matches `px`.
Iteration is over the dictionary keys, which no `__getitem__` call changes,
so the key list is fixed up front.  The error branch of the inner find is
dead code for tracked `e`. -/
def subsetLoop : MyDisjointSet → List Nat → Nat → MyDisjointSet × List Nat
  | s, [], _ => (s, [])
  | s, e :: rest, px =>
    match s.getitem e with
    | (s1, Except.ok pe) =>
      let r := subsetLoop s1 rest px
      (r.1, if pe = px then e :: r.2 else r.2)
    | (s1, Except.error _) => subsetLoop s1 rest px

/-- `MyDisjointSet.subset(x)`: resolve `x`'s root, then scan all tracked
elements collecting those with the same root. -/
def MyDisjointSet.subset (s : MyDisjointSet) (x : Nat) :
    MyDisjointSet × Except Nat (List Nat) :=
  match s.getitem x with
  | (s1, Except.error e) => (s1, Except.error e)
  | (s1, Except.ok px) =>
    let r := subsetLoop s1 s1.keys px
    (r.1, Except.ok r.2)

/-- `subset_dict[parent].append(e)` preceded by `subset_dict[parent] = []`
when the key is new: append `e` to the group of `r` in an association list,
creating the group at the end when absent. -/
def dictAppend : List (Nat × List Nat) → Nat → Nat → List (Nat × List Nat)
  | [], r, e => [(r, [e])]
  | p :: rest, r, e =>
    if p.1 = r then (p.1, p.2 ++ [e]) :: rest else p :: dictAppend rest r e

/-- The loop of `MyDisjointSet.subsets()`: group every tracked element
under its resolved root. -/
def subsetsLoop : MyDisjointSet → List Nat → List (Nat × List Nat) →
    MyDisjointSet × List (Nat × List Nat)
  | s, [], acc => (s, acc)
  | s, e :: rest, acc =>
    match s.getitem e with
    | (s1, Except.ok pe) => subsetsLoop s1 rest (dictAppend acc pe e)
    | (s1, Except.error _) => subsetsLoop s1 rest acc

/-- `MyDisjointSet.subsets()`: the root-to-members dictionary, modelled as
an association list in key insertion order. -/
def MyDisjointSet.subsets (s : MyDisjointSet) :
    MyDisjointSet × List (Nat × List Nat) :=
  subsetsLoop s s.keys []

/-- `p` is a root of the parent map `pm`. -/
def isRoot (pm : Nat → Nat) (p : Nat) : Prop := pm p = p

/-- Following parent links from `x` for `n` steps has reached a root
(iteration is absorbing at roots, so this is monotone in `n`). -/
def RootedIn (pm : Nat → Nat) (x : Nat) (n : Nat) : Prop :=
  isRoot pm (pm^[n] x)

/-- Following parent links from `x` eventually reaches the root `r`. -/
def Reaches (pm : Nat → Nat) (x r : Nat) : Prop :=
  (∃ n, pm^[n] x = r) ∧ isRoot pm r

/-- The root of `x` computed by plain parent-following for `keys.length`
steps; on states satisfying the invariant this is the canonical
representative of `x`. -/
def proot (s : MyDisjointSet) (x : Nat) : Nat := s.HM^[s.keys.length] x

/-- The data-structure invariant: the dictionary keys are distinct, parent
links stay inside the key set, and every tracked element reaches a root
within `keys.length` steps of parent-following. -/
def MyDisjointSet.Inv (s : MyDisjointSet) : Prop :=
  s.keys.Nodup ∧
  (∀ x ∈ s.keys, s.HM x ∈ s.keys) ∧
  (∀ x ∈ s.keys, RootedIn s.HM x s.keys.length)

instance (pm : Nat → Nat) (p : Nat) : Decidable (isRoot pm p) := by
  unfold isRoot
  infer_instance

instance (pm : Nat → Nat) (x n : Nat) : Decidable (RootedIn pm x n) := by
  unfold RootedIn isRoot
  infer_instance

instance (s : MyDisjointSet) : Decidable s.Inv := by
  unfold MyDisjointSet.Inv RootedIn isRoot
  infer_instance

/-- The states reachable from a fresh `MyDisjointSet()` by any sequence of
the public operations (with arbitrary arguments, including ones that raise). -/
inductive Reachable : MyDisjointSet → Prop where
  | empty : Reachable MyDisjointSet.empty
  | add (s : MyDisjointSet) (x : Nat) : Reachable s → Reachable (s.add x).1
  | merge (s : MyDisjointSet) (x y : Nat) : Reachable s → Reachable (s.merge x y).1
  | getitem (s : MyDisjointSet) (x : Nat) : Reachable s → Reachable (s.getitem x).1
  | connected (s : MyDisjointSet) (x y : Nat) : Reachable s → Reachable (s.connected x y).1
  | subset (s : MyDisjointSet) (x : Nat) : Reachable s → Reachable (s.subset x).1
  | subsets (s : MyDisjointSet) : Reachable s → Reachable (s.subsets).1

theorem isRoot_iterate {pm : Nat → Nat} {r : Nat} (h : isRoot pm r) (n : Nat) :
    pm^[n] r = r :=
  Function.iterate_fixed h n

theorem rootedIn_mono {pm : Nat → Nat} {x : Nat} {m n : Nat}
    (h : RootedIn pm x m) (hmn : m ≤ n) : RootedIn pm x n := by
  obtain ⟨k, rfl⟩ := Nat.exists_eq_add_of_le hmn
  unfold RootedIn at *
  rw [Nat.add_comm, Function.iterate_add_apply, isRoot_iterate h]
  exact h

theorem reaches_of_rootedIn {pm : Nat → Nat} {x n : Nat}
    (h : RootedIn pm x n) : Reaches pm x (pm^[n] x) :=
  ⟨⟨n, rfl⟩, h⟩

theorem reaches_iterate_ge {pm : Nat → Nat} {x r : Nat} {n : Nat}
    (hn : pm^[n] x = r) (hr : isRoot pm r) {m : Nat} (hm : n ≤ m) :
    pm^[m] x = r := by
  obtain ⟨k, rfl⟩ := Nat.exists_eq_add_of_le hm
  rw [Nat.add_comm, Function.iterate_add_apply, hn, isRoot_iterate hr]

theorem reaches_unique {pm : Nat → Nat} {x r r' : Nat}
    (h : Reaches pm x r) (h' : Reaches pm x r') : r = r' := by
  obtain ⟨⟨n, hn⟩, hr⟩ := h
  obtain ⟨⟨m, hm⟩, hr'⟩ := h'
  rcases Nat.le_total n m with hnm | hmn
  · rw [← hm, reaches_iterate_ge hn hr hnm]
  · rw [← hn, reaches_iterate_ge hm hr' hmn]

theorem reaches_shift {pm : Nat → Nat} {x r : Nat} (h : Reaches pm x r)
    (k : Nat) : Reaches pm (pm^[k] x) r := by
  obtain ⟨⟨n, hn⟩, hr⟩ := h
  refine ⟨⟨n, ?_⟩, hr⟩
  rw [← Function.iterate_add_apply]
  exact reaches_iterate_ge hn hr (Nat.le_add_right n k)

theorem rootedIn_of_reaches {pm : Nat → Nat} {x r : Nat}
    (h : Reaches pm x r) : ∃ n, RootedIn pm x n := by
  obtain ⟨⟨n, hn⟩, hr⟩ := h
  exact ⟨n, by unfold RootedIn; rw [hn]; exact hr⟩

theorem iterate_eq_of_reaches {pm : Nat → Nat} {x r : Nat} {n : Nat}
    (h : Reaches pm x r) (hn : RootedIn pm x n) : pm^[n] x = r :=
  reaches_unique (reaches_of_rootedIn hn) h

theorem iterate_update_of_avoid {pm : Nat → Nat} {x a : Nat} (b : Nat)
    (ha : ∀ k, pm^[k] x ≠ a) : ∀ k, (Function.update pm a b)^[k] x = pm^[k] x := by
  intro k
  induction k with
  | zero => rfl
  | succ k ih =>
    rw [Function.iterate_succ_apply', Function.iterate_succ_apply', ih,
      Function.update_noteq (ha k)]

theorem reaches_update_of_avoid {pm : Nat → Nat} {x r a : Nat} (b : Nat)
    (h : Reaches pm x r) (ha : ∀ k, pm^[k] x ≠ a) :
    Reaches (Function.update pm a b) x r := by
  obtain ⟨⟨n, hn⟩, hr⟩ := h
  refine ⟨⟨n, by rw [iterate_update_of_avoid b ha, hn]⟩, ?_⟩
  have hra : r ≠ a := hn ▸ ha n
  unfold isRoot
  rw [Function.update_noteq hra]
  exact hr

theorem reaches_update_of_hit {pm : Nat → Nat} {x a b rb : Nat}
    (hb : Reaches pm b rb) (hab : ∀ k, pm^[k] b ≠ a)
    (hhit : ∃ k, pm^[k] x = a) :
    Reaches (Function.update pm a b) x rb := by
  set pm' := Function.update pm a b with hpm'
  have hpre : ∀ i, i ≤ Nat.find hhit → pm'^[i] x = pm^[i] x := by
    intro i hi
    induction i with
    | zero => rfl
    | succ i ih =>
      have hi' : i < Nat.find hhit := Nat.lt_of_succ_le hi
      rw [Function.iterate_succ_apply', Function.iterate_succ_apply',
        ih (Nat.le_of_lt hi'), hpm',
        Function.update_noteq (Nat.find_min hhit hi')]
  have hfind : pm'^[Nat.find hhit] x = a := by
    rw [hpre _ (Nat.le_refl _)]
    exact Nat.find_spec hhit
  have hstep : pm'^[Nat.find hhit + 1] x = b := by
    rw [Function.iterate_succ_apply', hfind, hpm', Function.update_same]
  have hb' : Reaches pm' b rb := reaches_update_of_avoid b hb hab
  obtain ⟨⟨m, hm⟩, hr⟩ := hb'
  refine ⟨⟨m + (Nat.find hhit + 1), ?_⟩, hr⟩
  rw [Function.iterate_add_apply, hstep, hm]

theorem avoid_of_rootedIn {pm : Nat → Nat} {p n : Nat}
    (hn : RootedIn pm p n) (hp : pm p ≠ p) :
    ∀ k, pm^[k] (pm (pm p)) ≠ p := by
  intro k hk
  have hcyc : pm^[k + 2] p = p := by
    have : pm^[k] (pm^[2] p) = p := hk
    rwa [← Function.iterate_add_apply] at this
  have hper : ∀ j, pm^[j * (k + 2)] p = p := by
    intro j
    induction j with
    | zero => rw [Nat.zero_mul]; rfl
    | succ j ih =>
      rw [Nat.succ_mul, Function.iterate_add_apply, hcyc, ih]
  have hbig : n ≤ n * (k + 2) := Nat.le_mul_of_pos_right n (Nat.succ_pos _)
  have hthis : pm^[n * (k + 2)] p = pm^[n] p :=
    reaches_iterate_ge rfl hn hbig
  have hpr : p = pm^[n] p := by rw [← hthis, hper n]
  have hiso : pm (pm^[n] p) = pm^[n] p := hn
  rw [← hpr] at hiso
  exact hp hiso

theorem iterate_rep_trans {pm pm' : Nat → Nat}
    (hstep : ∀ w, pm' w = pm w ∨ pm' w = pm^[2] w) :
    ∀ k z, ∃ m, k ≤ m ∧ pm'^[k] z = pm^[m] z := by
  intro k
  induction k with
  | zero => exact fun z => ⟨0, Nat.le_refl 0, rfl⟩
  | succ k ih =>
    intro z
    obtain ⟨m, hkm, hm⟩ := ih z
    rcases hstep (pm'^[k] z) with h | h
    · refine ⟨m + 1, Nat.succ_le_succ hkm, ?_⟩
      rw [Function.iterate_succ_apply', h, hm]
      exact (Function.iterate_succ_apply' pm m z).symm
    · refine ⟨m + 2, Nat.le_succ_of_le (Nat.succ_le_succ hkm), ?_⟩
      rw [Function.iterate_succ_apply', h, hm, Nat.add_comm m 2]
      exact (Function.iterate_add_apply pm 2 m z).symm

theorem findAux_zero (pm : Nat → Nat) (p : Nat) : findAux 0 pm p = (pm, p) :=
  rfl

theorem findAux_succ_root (fuel : Nat) (pm : Nat → Nat) (p : Nat)
    (h : pm p = p) : findAux (fuel + 1) pm p = (pm, p) := by
  simp [findAux, h]

theorem findAux_succ_step (fuel : Nat) (pm : Nat → Nat) (p : Nat)
    (h : pm p ≠ p) :
    findAux (fuel + 1) pm p =
      findAux fuel (Function.update pm p (pm (pm p)))
        (Function.update pm p (pm (pm p)) p) := by
  simp [findAux, h]

theorem findAux_spec : ∀ (fuel : Nat) (pm : Nat → Nat) (p n : Nat),
    RootedIn pm p n → n ≤ fuel →
    (∀ y r, Reaches pm y r → Reaches (findAux fuel pm p).1 y r) ∧
    Reaches pm p (findAux fuel pm p).2 ∧
    (∀ z, ∃ k, 1 ≤ k ∧ (findAux fuel pm p).1 z = pm^[k] z) := by
  intro fuel
  induction fuel with
  | zero =>
    intro pm p n hn hfuel
    have hn0 : n = 0 := Nat.le_zero.mp hfuel
    subst hn0
    refine ⟨fun y r h => h, ⟨⟨0, rfl⟩, hn⟩, fun z => ⟨1, Nat.le_refl 1, rfl⟩⟩
  | succ fuel ih =>
    intro pm p n hn hfuel
    by_cases hpp : pm p = p
    · rw [findAux_succ_root fuel pm p hpp]
      exact ⟨fun y r h => h, ⟨⟨0, rfl⟩, hpp⟩, fun z => ⟨1, Nat.le_refl 1, rfl⟩⟩
    · have hn1 : 1 ≤ n := by
        rcases Nat.eq_zero_or_pos n with h0 | h1
        · subst h0; exact absurd hn hpp
        · exact h1
      set q := pm (pm p) with hq
      set pm' := Function.update pm p q with hpm'
      have hpq : pm' p = q := Function.update_same p q pm
      have hunfold : findAux (fuel + 1) pm p = findAux fuel pm' q := by
        rw [← hpq]
        exact findAux_succ_step fuel pm p hpp
      have havoid : ∀ k, pm^[k] q ≠ p := avoid_of_rootedIn hn hpp
      have hq2 : ∀ m, pm^[m] q = pm^[m + 2] p := by
        intro m
        exact (Function.iterate_add_apply pm m 2 p).symm
      have hqpm : RootedIn pm q (n - 1) := by
        unfold RootedIn
        rw [hq2]
        have heq : n - 1 + 2 = n + 1 := by omega
        rw [heq]
        exact rootedIn_mono hn (Nat.le_succ n)
      have hqpm' : RootedIn pm' q (n - 1) := by
        unfold RootedIn isRoot
        rw [hpm', iterate_update_of_avoid q havoid,
          Function.update_noteq (havoid (n - 1))]
        exact hqpm
      have hfuel' : n - 1 ≤ fuel := by omega
      obtain ⟨IH1, IH2, IH3⟩ := ih pm' q (n - 1) hqpm' hfuel'
      have hrootp : Reaches pm p (pm^[n] p) := reaches_of_rootedIn hn
      have hrootq : Reaches pm q (pm^[n] p) := by
        refine ⟨⟨n, ?_⟩, hrootp.2⟩
        rw [hq2]
        exact reaches_iterate_ge rfl hn (by omega)
      have hP : ∀ y r, Reaches pm y r → Reaches pm' y r := by
        intro y r hy
        by_cases hhit : ∃ k, pm^[k] y = p
        · have hyp : Reaches pm p r := by
            obtain ⟨k, hk⟩ := hhit
            have := reaches_shift hy k
            rwa [hk] at this
          have hqr : Reaches pm q r := by
            have h2 : Reaches pm (pm^[2] p) r := reaches_shift hyp 2
            have he : pm^[2] p = q := rfl
            rwa [he] at h2
          exact reaches_update_of_hit hqr havoid hhit
        · push_neg at hhit
          exact reaches_update_of_avoid q hy hhit
      have hres2 : Reaches pm p (findAux fuel pm' q).2 := by
        have hq' : Reaches pm' q (pm^[n] p) := hP q (pm^[n] p) hrootq
        have huniq := reaches_unique hq' IH2
        rw [← huniq]
        exact hrootp
      rw [hunfold]
      refine ⟨fun y r hy => IH1 y r (hP y r hy), hres2, ?_⟩
      intro z
      obtain ⟨k, hk1, hk⟩ := IH3 z
      have hstep : ∀ w, pm' w = pm w ∨ pm' w = pm^[2] w := by
        intro w
        by_cases hw : w = p
        · subst hw
          right
          rw [hpm', Function.update_same]
          rfl
        · left
          rw [hpm', Function.update_noteq hw]
      obtain ⟨m, hkm, hm⟩ := iterate_rep_trans hstep k z
      exact ⟨m, Nat.le_trans hk1 hkm, by rw [hk, hm]⟩

theorem iterate_mem_of_closed {pm : Nat → Nat} {keys : List Nat}
    (hcl : ∀ z ∈ keys, pm z ∈ keys) {y : Nat} (hy : y ∈ keys) :
    ∀ i, pm^[i] y ∈ keys := by
  intro i
  induction i with
  | zero => exact hy
  | succ i ih =>
    rw [Function.iterate_succ_apply']
    exact hcl _ ih

theorem rootedIn_length_of_reaches {pm : Nat → Nat} {keys : List Nat}
    (hcl : ∀ z ∈ keys, pm z ∈ keys) {y r : Nat} (hy : y ∈ keys)
    (hr : Reaches pm y r) : RootedIn pm y keys.length := by
  have hEx : ∃ n, isRoot pm (pm^[n] y) := by
    obtain ⟨⟨n, hn⟩, hroot⟩ := hr
    exact ⟨n, by rw [hn]; exact hroot⟩
  set d := Nat.find hEx with hd
  have hspec : isRoot pm (pm^[d] y) := Nat.find_spec hEx
  have hmin : ∀ m, m < d → ¬ isRoot pm (pm^[m] y) :=
    fun m hm => Nat.find_min hEx hm
  have hdist : ∀ i j, i < j → j ≤ d → pm^[i] y ≠ pm^[j] y := by
    intro i j hij hjd heq
    have hiter : ∀ k, pm^[i + k] y = pm^[j + k] y := by
      intro k
      rw [Nat.add_comm i k, Nat.add_comm j k, Function.iterate_add_apply,
        Function.iterate_add_apply, heq]
    have hroot2 : isRoot pm (pm^[i + (d - j)] y) := by
      rw [hiter (d - j)]
      have hjc : j + (d - j) = d := Nat.add_sub_cancel' hjd
      rw [hjc]
      exact hspec
    exact hmin _ (by omega) hroot2
  have hinj : Set.InjOn (fun i => pm^[i] y) (Finset.range (d + 1)) := by
    intro i hi j hj hij_eq
    simp only [Finset.coe_range, Set.mem_Iio] at hi hj
    rcases Nat.lt_trichotomy i j with hlt | heq | hgt
    · exact absurd hij_eq (hdist i j hlt (Nat.lt_succ_iff.mp hj))
    · exact heq
    · exact absurd hij_eq.symm (hdist j i hgt (Nat.lt_succ_iff.mp hi))
  have hmaps : ∀ i ∈ Finset.range (d + 1), pm^[i] y ∈ keys.toFinset := by
    intro i _
    rw [List.mem_toFinset]
    exact iterate_mem_of_closed hcl hy i
  have hcard := Finset.card_le_card_of_injOn _ hmaps hinj
  rw [Finset.card_range] at hcard
  have hle : d + 1 ≤ keys.length := le_trans hcard keys.toFinset_card_le
  exact rootedIn_mono hspec (by omega)

theorem proot_reaches {s : MyDisjointSet} (h : s.Inv) {z : Nat}
    (hz : z ∈ s.keys) : Reaches s.HM z (proot s z) :=
  reaches_of_rootedIn (h.2.2 z hz)

theorem proot_eq_of_reaches {s : MyDisjointSet}
    (hcl : ∀ z ∈ s.keys, s.HM z ∈ s.keys) {z r : Nat} (hz : z ∈ s.keys)
    (hr : Reaches s.HM z r) : proot s z = r :=
  iterate_eq_of_reaches hr (rootedIn_length_of_reaches hcl hz hr)

theorem proot_isRoot {s : MyDisjointSet} (h : s.Inv) {z : Nat}
    (hz : z ∈ s.keys) : isRoot s.HM (proot s z) :=
  (proot_reaches h hz).2

theorem proot_mem {s : MyDisjointSet} (h : s.Inv) {z : Nat}
    (hz : z ∈ s.keys) : proot s z ∈ s.keys :=
  iterate_mem_of_closed h.2.1 hz s.keys.length

theorem getitem_mem_def (s : MyDisjointSet) {x : Nat} (hx : x ∈ s.keys) :
    s.getitem x = (⟨s.keys, (findAux s.keys.length s.HM x).1, s.size⟩,
      Except.ok (findAux s.keys.length s.HM x).2) := by
  unfold MyDisjointSet.getitem
  rw [if_pos hx]

theorem getitem_not_mem (s : MyDisjointSet) {x : Nat} (hx : x ∉ s.keys) :
    s.getitem x = (s, Except.error x) := by
  unfold MyDisjointSet.getitem
  rw [if_neg hx]

theorem getitem_spec (s : MyDisjointSet) {x : Nat} (h : s.Inv)
    (hx : x ∈ s.keys) :
    (s.getitem x).2 = Except.ok (proot s x) ∧
    (s.getitem x).1.keys = s.keys ∧
    (s.getitem x).1.size = s.size ∧
    (s.getitem x).1.Inv ∧
    (∀ z ∈ s.keys, Reaches (s.getitem x).1.HM z (proot s z)) ∧
    (∀ z ∈ s.keys, proot (s.getitem x).1 z = proot s z) := by
  obtain ⟨hnd, hcl, hrt⟩ := h
  obtain ⟨hpres, hreach, hrep⟩ :=
    findAux_spec s.keys.length s.HM x s.keys.length (hrt x hx) (Nat.le_refl _)
  rw [getitem_mem_def s hx]
  set pm1 := (findAux s.keys.length s.HM x).1 with hpm1
  have hcl1 : ∀ z ∈ s.keys, pm1 z ∈ s.keys := by
    intro z hz
    obtain ⟨k, _, hk⟩ := hrep z
    rw [hk]
    exact iterate_mem_of_closed hcl hz k
  have hreach1 : ∀ z ∈ s.keys, Reaches pm1 z (proot s z) := fun z hz =>
    hpres z (proot s z) (reaches_of_rootedIn (hrt z hz))
  have hrt1 : ∀ z ∈ s.keys, RootedIn pm1 z s.keys.length := fun z hz =>
    rootedIn_length_of_reaches hcl1 hz (hreach1 z hz)
  have hInv1 : (⟨s.keys, pm1, s.size⟩ : MyDisjointSet).Inv := ⟨hnd, hcl1, hrt1⟩
  have hproot1 : ∀ z ∈ s.keys,
      proot ⟨s.keys, pm1, s.size⟩ z = proot s z := fun z hz =>
    iterate_eq_of_reaches (hreach1 z hz) (hrt1 z hz)
  have hres : (findAux s.keys.length s.HM x).2 = proot s x :=
    reaches_unique hreach (reaches_of_rootedIn (hrt x hx))
  exact ⟨by rw [hres], rfl, rfl, hInv1, hreach1, hproot1⟩

theorem getitem_pair (s : MyDisjointSet) {x : Nat} (h : s.Inv)
    (hx : x ∈ s.keys) :
    s.getitem x = ((s.getitem x).1, Except.ok (proot s x)) := by
  have h2 := (getitem_spec s h hx).1
  rw [← h2]

theorem getitem_inv (s : MyDisjointSet) (x : Nat) (h : s.Inv) :
    (s.getitem x).1.Inv ∧
    (s.getitem x).1.keys = s.keys ∧
    (s.getitem x).1.size = s.size ∧
    (∀ z ∈ s.keys, proot (s.getitem x).1 z = proot s z) := by
  by_cases hx : x ∈ s.keys
  · obtain ⟨_, h2, h3, h4, _, h6⟩ := getitem_spec s h hx
    exact ⟨h4, h2, h3, h6⟩
  · rw [getitem_not_mem s hx]
    exact ⟨h, rfl, rfl, fun z _ => rfl⟩

theorem reaches_link {pm : Nat → Nat} {rx ry : Nat}
    (hrx : isRoot pm rx) (hry : isRoot pm ry) (hne : rx ≠ ry) :
    ∀ y r, Reaches pm y r →
      Reaches (Function.update pm rx ry) y (if r = rx then ry else r) := by
  intro y r hy
  have havoid : ∀ k, pm^[k] ry ≠ rx := by
    intro k
    rw [isRoot_iterate hry]
    exact Ne.symm hne
  by_cases hr : r = rx
  · subst hr
    rw [if_pos rfl]
    obtain ⟨⟨n, hn⟩, _⟩ := hy
    exact reaches_update_of_hit ⟨⟨0, rfl⟩, hry⟩ havoid ⟨n, hn⟩
  · rw [if_neg hr]
    refine reaches_update_of_avoid ry hy ?_
    intro k hk
    exact hr (reaches_unique hy ⟨⟨k, hk⟩, hrx⟩)

theorem add_mem (s : MyDisjointSet) {x : Nat} (hx : x ∈ s.keys) :
    s.add x = (s, none) := by
  simp [MyDisjointSet.add, hx]

theorem add_not_mem (s : MyDisjointSet) {x : Nat} (hx : x ∉ s.keys) :
    s.add x = (⟨s.keys ++ [x], Function.update s.HM x x,
      Function.update s.size x 1⟩, some x) := by
  simp [MyDisjointSet.add, hx]

theorem merge_def_ok {s s1 s2 : MyDisjointSet} {x y px py : Nat}
    (hgx : s.getitem x = (s1, Except.ok px))
    (hgy : s1.getitem y = (s2, Except.ok py)) :
    s.merge x y =
      (if s2.size px > s2.size py then
        (⟨s2.keys, Function.update s2.HM py px,
          Function.update s2.size px (s2.size px + s2.size py)⟩,
          Except.ok ())
      else
        (⟨s2.keys, Function.update s2.HM px py,
          Function.update s2.size py (s2.size px + s2.size py)⟩,
          Except.ok ())) := by
  simp only [MyDisjointSet.merge, hgx, hgy]

theorem merge_def_err1 {s s1 : MyDisjointSet} {x e : Nat} (y : Nat)
    (hgx : s.getitem x = (s1, Except.error e)) :
    s.merge x y = (s1, Except.error e) := by
  simp only [MyDisjointSet.merge, hgx]

theorem merge_def_err2 {s s1 s2 : MyDisjointSet} {x y px e : Nat}
    (hgx : s.getitem x = (s1, Except.ok px))
    (hgy : s1.getitem y = (s2, Except.error e)) :
    s.merge x y = (s2, Except.error e) := by
  simp only [MyDisjointSet.merge, hgx, hgy]

theorem connected_def_ok {s s1 s2 : MyDisjointSet} {x y px py : Nat}
    (hgx : s.getitem x = (s1, Except.ok px))
    (hgy : s1.getitem y = (s2, Except.ok py)) :
    s.connected x y = (s2, Except.ok (decide (px = py))) := by
  simp only [MyDisjointSet.connected, hgx, hgy]

theorem connected_def_err1 {s s1 : MyDisjointSet} {x e : Nat} (y : Nat)
    (hgx : s.getitem x = (s1, Except.error e)) :
    s.connected x y = (s1, Except.error e) := by
  simp only [MyDisjointSet.connected, hgx]

theorem connected_def_err2 {s s1 s2 : MyDisjointSet} {x y px e : Nat}
    (hgx : s.getitem x = (s1, Except.ok px))
    (hgy : s1.getitem y = (s2, Except.error e)) :
    s.connected x y = (s2, Except.error e) := by
  simp only [MyDisjointSet.connected, hgx, hgy]

theorem link_result {s2 : MyDisjointSet} (h2 : s2.Inv)
    {rl rw2 : Nat} (hrw : rw2 ∈ s2.keys)
    (hrootl : isRoot s2.HM rl) (hrootw : isRoot s2.HM rw2)
    (hne : rl ≠ rw2) (sz : Nat → Nat) :
    (⟨s2.keys, Function.update s2.HM rl rw2, sz⟩ : MyDisjointSet).Inv ∧
    (∀ z ∈ s2.keys,
      proot ⟨s2.keys, Function.update s2.HM rl rw2, sz⟩ z =
        (if proot s2 z = rl then rw2 else proot s2 z)) := by
  obtain ⟨hnd, hcl, hrt⟩ := h2
  have hcl' : ∀ z ∈ s2.keys, Function.update s2.HM rl rw2 z ∈ s2.keys := by
    intro z hz
    by_cases hzz : z = rl
    · subst hzz
      rw [Function.update_same]
      exact hrw
    · rw [Function.update_noteq hzz]
      exact hcl z hz
  have hreach' : ∀ z ∈ s2.keys,
      Reaches (Function.update s2.HM rl rw2) z
        (if proot s2 z = rl then rw2 else proot s2 z) := by
    intro z hz
    exact reaches_link hrootl hrootw hne z (proot s2 z)
      (reaches_of_rootedIn (hrt z hz))
  have hrt' : ∀ z ∈ s2.keys,
      RootedIn (Function.update s2.HM rl rw2) z s2.keys.length := fun z hz =>
    rootedIn_length_of_reaches hcl' hz (hreach' z hz)
  refine ⟨⟨hnd, hcl', hrt'⟩, ?_⟩
  intro z hz
  exact iterate_eq_of_reaches (hreach' z hz) (hrt' z hz)

theorem merge_spec (s : MyDisjointSet) {x y : Nat} (h : s.Inv)
    (hx : x ∈ s.keys) (hy : y ∈ s.keys) :
    (s.merge x y).2 = Except.ok () ∧
    (s.merge x y).1.keys = s.keys ∧
    (s.merge x y).1.Inv ∧
    (proot s x = proot s y →
      ∀ z ∈ s.keys, proot (s.merge x y).1 z = proot s z) ∧
    (proot s x ≠ proot s y →
      ∀ z ∈ s.keys, proot (s.merge x y).1 z =
        (if s.size (proot s x) > s.size (proot s y) then
          (if proot s z = proot s y then proot s x else proot s z)
        else
          (if proot s z = proot s x then proot s y else proot s z))) := by
  obtain ⟨hg1ok, hk1, hs1sz, hInv1, hre1, hpr1⟩ := getitem_spec s h hx
  have hy1 : y ∈ (s.getitem x).1.keys := by
    rw [hk1]
    exact hy
  obtain ⟨hg2ok, hk2, hs2sz, hInv2, hre2, hpr2⟩ :=
    getitem_spec (s.getitem x).1 hInv1 hy1
  set s1 := (s.getitem x).1 with hs1def
  set s2 := (s1.getitem y).1 with hs2def
  set rx := proot s x with hrxdef
  set ry := proot s y with hrydef
  have hgx : s.getitem x = (s1, Except.ok rx) := getitem_pair s h hx
  have hgy : s1.getitem y = (s2, Except.ok ry) := by
    have hp := getitem_pair s1 hInv1 hy1
    rw [hpr1 y hy] at hp
    exact hp
  have hmerge := merge_def_ok hgx hgy
  have hk2' : s2.keys = s.keys := by rw [hk2, hk1]
  have hsz2 : s2.size = s.size := by rw [hs2sz, hs1sz]
  have hpr2' : ∀ z ∈ s.keys, proot s2 z = proot s z := by
    intro z hz
    rw [hpr2 z (by rw [hk1]; exact hz), hpr1 z hz]
  have hre2' : ∀ z ∈ s.keys, Reaches s2.HM z (proot s z) := by
    intro z hz
    have hr := hre2 z (by rw [hk1]; exact hz)
    rwa [hpr1 z hz] at hr
  have hrootx : isRoot s2.HM rx := (hre2' x hx).2
  have hrooty : isRoot s2.HM ry := (hre2' y hy).2
  have hrxmem : rx ∈ s2.keys := by
    rw [hk2']
    exact proot_mem h hx
  have hrymem : ry ∈ s2.keys := by
    rw [hk2']
    exact proot_mem h hy
  rw [hmerge]
  by_cases hcond : s2.size rx > s2.size ry
  · rw [if_pos hcond]
    have hne : ry ≠ rx := by
      intro hrr
      rw [hrr] at hcond
      exact lt_irrefl _ hcond
    obtain ⟨hInvT, hprT⟩ := link_result hInv2 hrxmem hrooty hrootx hne
      (Function.update s2.size rx (s2.size rx + s2.size ry))
    refine ⟨rfl, hk2', hInvT, ?_, ?_⟩
    · intro hxy
      exact absurd hxy.symm hne
    · intro _ z hz
      have hcondS : s.size rx > s.size ry := by
        rw [← hsz2]
        exact hcond
      rw [if_pos hcondS]
      have hT := hprT z (by rw [hk2']; exact hz)
      rw [hpr2' z hz] at hT
      exact hT
  · rw [if_neg hcond]
    by_cases hxy : rx = ry
    · have hupd : Function.update s2.HM rx ry = s2.HM := by
        rw [Function.update_eq_self_iff, hrootx]
        exact hxy.symm
      rw [hupd]
      have hInvT : (⟨s2.keys, s2.HM,
          Function.update s2.size ry (s2.size rx + s2.size ry)⟩ :
            MyDisjointSet).Inv := hInv2
      refine ⟨rfl, hk2', hInvT, ?_, ?_⟩
      · intro _ z hz
        exact hpr2' z hz
      · intro hne
        exact absurd hxy hne
    · obtain ⟨hInvT, hprT⟩ := link_result hInv2 hrymem hrootx hrooty hxy
        (Function.update s2.size ry (s2.size rx + s2.size ry))
      refine ⟨rfl, hk2', hInvT, ?_, ?_⟩
      · intro heq
        exact absurd heq hxy
      · intro _ z hz
        have hcondS : ¬ s.size rx > s.size ry := by
          rw [← hsz2]
          exact hcond
        rw [if_neg hcondS]
        have hT := hprT z (by rw [hk2']; exact hz)
        rw [hpr2' z hz] at hT
        exact hT

theorem connected_spec (s : MyDisjointSet) {x y : Nat} (h : s.Inv)
    (hx : x ∈ s.keys) (hy : y ∈ s.keys) :
    (s.connected x y).2 = Except.ok (decide (proot s x = proot s y)) ∧
    (s.connected x y).1.keys = s.keys ∧
    (s.connected x y).1.size = s.size ∧
    (s.connected x y).1.Inv ∧
    (∀ z ∈ s.keys, proot (s.connected x y).1 z = proot s z) := by
  obtain ⟨hg1ok, hk1, hs1sz, hInv1, hre1, hpr1⟩ := getitem_spec s h hx
  have hy1 : y ∈ (s.getitem x).1.keys := by
    rw [hk1]
    exact hy
  obtain ⟨hg2ok, hk2, hs2sz, hInv2, hre2, hpr2⟩ :=
    getitem_spec (s.getitem x).1 hInv1 hy1
  have hgx : s.getitem x = ((s.getitem x).1, Except.ok (proot s x)) :=
    getitem_pair s h hx
  have hgy : (s.getitem x).1.getitem y =
      (((s.getitem x).1.getitem y).1, Except.ok (proot s y)) := by
    have hp := getitem_pair (s.getitem x).1 hInv1 hy1
    rw [hpr1 y hy] at hp
    exact hp
  have hcon := connected_def_ok hgx hgy
  rw [hcon]
  refine ⟨rfl, by rw [hk2, hk1], by rw [hs2sz, hs1sz], hInv2, ?_⟩
  intro z hz
  rw [hpr2 z (by rw [hk1]; exact hz), hpr1 z hz]

theorem add_spec (s : MyDisjointSet) {x : Nat} (h : s.Inv) (hx : x ∉ s.keys) :
    (s.add x).1.Inv ∧
    (s.add x).1.keys = s.keys ++ [x] ∧
    (s.add x).1.size = Function.update s.size x 1 ∧
    (∀ z ∈ s.keys, proot (s.add x).1 z = proot s z) ∧
    proot (s.add x).1 x = x ∧
    (s.add x).2 = some x := by
  obtain ⟨hnd, hcl, hrt⟩ := h
  rw [add_not_mem s hx]
  set pm' := Function.update s.HM x x with hpm'
  set keys' := s.keys ++ [x] with hkeys'
  have hmem' : ∀ z, z ∈ keys' ↔ z ∈ s.keys ∨ z = x := by
    intro z
    rw [hkeys', List.mem_append, List.mem_singleton]
  have hnd' : keys'.Nodup := by
    rw [hkeys']
    refine List.Nodup.append hnd (List.nodup_singleton x) ?_
    intro a ha hax
    rw [List.mem_singleton] at hax
    subst hax
    exact hx ha
  have hcl' : ∀ z ∈ keys', pm' z ∈ keys' := by
    intro z hz
    rcases (hmem' z).mp hz with hzk | hzx
    · have hzx : z ≠ x := fun hc => hx (hc ▸ hzk)
      rw [hpm', Function.update_noteq hzx]
      exact (hmem' _).mpr (Or.inl (hcl z hzk))
    · subst hzx
      rw [hpm', Function.update_same]
      exact hz
  have hreOld : ∀ z ∈ s.keys, Reaches pm' z (proot s z) := by
    intro z hz
    refine reaches_update_of_avoid x (reaches_of_rootedIn (hrt z hz)) ?_
    intro k hk
    exact hx (hk ▸ iterate_mem_of_closed hcl hz k)
  have hreX : Reaches pm' x x :=
    ⟨⟨0, rfl⟩, show pm' x = x from Function.update_same x x s.HM⟩
  have hrt' : ∀ z ∈ keys', RootedIn pm' z keys'.length := by
    intro z hz
    rcases (hmem' z).mp hz with hzk | hzx
    · exact rootedIn_length_of_reaches hcl' hz (hreOld z hzk)
    · subst hzx
      exact rootedIn_length_of_reaches hcl' hz hreX
  refine ⟨⟨hnd', hcl', hrt'⟩, rfl, rfl, ?_, ?_, rfl⟩
  · intro z hz
    exact iterate_eq_of_reaches (hreOld z hz)
      (hrt' z ((hmem' z).mpr (Or.inl hz)))
  · exact iterate_eq_of_reaches hreX (hrt' x ((hmem' x).mpr (Or.inr rfl)))

theorem subsetLoop_cons_ok {s s1 : MyDisjointSet} {e pe : Nat}
    (rest : List Nat) (px : Nat)
    (hge : s.getitem e = (s1, Except.ok pe)) :
    subsetLoop s (e :: rest) px =
      ((subsetLoop s1 rest px).1,
        if pe = px then e :: (subsetLoop s1 rest px).2
        else (subsetLoop s1 rest px).2) := by
  simp only [subsetLoop, hge]

theorem subsetLoop_spec : ∀ (l : List Nat) (s : MyDisjointSet) (px : Nat),
    s.Inv → (∀ e ∈ l, e ∈ s.keys) →
    (subsetLoop s l px).1.Inv ∧
    (subsetLoop s l px).1.keys = s.keys ∧
    (subsetLoop s l px).1.size = s.size ∧
    (∀ z ∈ s.keys, proot (subsetLoop s l px).1 z = proot s z) ∧
    (subsetLoop s l px).2 = l.filter (fun e => decide (proot s e = px)) := by
  intro l
  induction l with
  | nil =>
    intro s px h _
    exact ⟨h, rfl, rfl, fun z _ => rfl, rfl⟩
  | cons e rest ih =>
    intro s px h hl
    have he : e ∈ s.keys := hl e (List.mem_cons_self e rest)
    obtain ⟨hgok, hk1, hsz1, hInv1, _, hpr1⟩ := getitem_spec s h he
    have hge : s.getitem e = ((s.getitem e).1, Except.ok (proot s e)) :=
      getitem_pair s h he
    rw [subsetLoop_cons_ok rest px hge]
    have hrest : ∀ a ∈ rest, a ∈ (s.getitem e).1.keys := by
      intro a ha
      rw [hk1]
      exact hl a (List.mem_cons_of_mem e ha)
    obtain ⟨ih1, ih2, ih3, ih4, ih5⟩ := ih (s.getitem e).1 px hInv1 hrest
    have hfil : rest.filter
          (fun a => decide (proot (s.getitem e).1 a = px)) =
        rest.filter (fun a => decide (proot s a = px)) := by
      apply List.filter_congr
      intro a ha
      rw [hpr1 a (hl a (List.mem_cons_of_mem e ha))]
    refine ⟨ih1, by rw [ih2, hk1], by rw [ih3, hsz1], ?_, ?_⟩
    · intro z hz
      rw [ih4 z (by rw [hk1]; exact hz), hpr1 z hz]
    · rw [ih5, hfil, List.filter_cons]
      by_cases hpe : proot s e = px
      · rw [if_pos hpe, if_pos (by rw [hpe]; simp)]
      · rw [if_neg hpe, if_neg (by simp [hpe])]

theorem subset_def_ok {s s1 : MyDisjointSet} {x px : Nat}
    (hgx : s.getitem x = (s1, Except.ok px)) :
    s.subset x = ((subsetLoop s1 s1.keys px).1,
      Except.ok (subsetLoop s1 s1.keys px).2) := by
  simp only [MyDisjointSet.subset, hgx]

theorem subset_def_err {s s1 : MyDisjointSet} {x e : Nat}
    (hgx : s.getitem x = (s1, Except.error e)) :
    s.subset x = (s1, Except.error e) := by
  simp only [MyDisjointSet.subset, hgx]

theorem subset_spec (s : MyDisjointSet) {x : Nat} (h : s.Inv)
    (hx : x ∈ s.keys) :
    (s.subset x).2 = Except.ok
      (s.keys.filter (fun e => decide (proot s e = proot s x))) ∧
    (s.subset x).1.Inv ∧
    (s.subset x).1.keys = s.keys ∧
    (s.subset x).1.size = s.size ∧
    (∀ z ∈ s.keys, proot (s.subset x).1 z = proot s z) := by
  obtain ⟨hgok, hk1, hsz1, hInv1, _, hpr1⟩ := getitem_spec s h hx
  have hgx : s.getitem x = ((s.getitem x).1, Except.ok (proot s x)) :=
    getitem_pair s h hx
  rw [subset_def_ok hgx]
  have hsub : ∀ e ∈ (s.getitem x).1.keys, e ∈ (s.getitem x).1.keys :=
    fun e he => he
  obtain ⟨l1, l2, l3, l4, l5⟩ :=
    subsetLoop_spec (s.getitem x).1.keys (s.getitem x).1 (proot s x) hInv1 hsub
  have hfil : (s.getitem x).1.keys.filter
        (fun e => decide (proot (s.getitem x).1 e = proot s x)) =
      s.keys.filter (fun e => decide (proot s e = proot s x)) := by
    rw [hk1]
    apply List.filter_congr
    intro a ha
    rw [hpr1 a ha]
  refine ⟨by rw [l5, hfil], l1, by rw [l2, hk1], by rw [l3, hsz1], ?_⟩
  intro z hz
  rw [l4 z (by rw [hk1]; exact hz), hpr1 z hz]

theorem dictAppend_cons_eq {q : Nat × List Nat} {rest : List (Nat × List Nat)}
    {r : Nat} (e : Nat) (h : q.1 = r) :
    dictAppend (q :: rest) r e = (q.1, q.2 ++ [e]) :: rest := by
  show (if q.1 = r then (q.1, q.2 ++ [e]) :: rest
    else q :: dictAppend rest r e) = _
  rw [if_pos h]

theorem dictAppend_cons_ne {q : Nat × List Nat} {rest : List (Nat × List Nat)}
    {r : Nat} (e : Nat) (h : q.1 ≠ r) :
    dictAppend (q :: rest) r e = q :: dictAppend rest r e := by
  show (if q.1 = r then (q.1, q.2 ++ [e]) :: rest
    else q :: dictAppend rest r e) = _
  rw [if_neg h]

theorem dictAppend_fst : ∀ (acc : List (Nat × List Nat)) (r e : Nat),
    (dictAppend acc r e).map Prod.fst =
      (if r ∈ acc.map Prod.fst then acc.map Prod.fst
       else acc.map Prod.fst ++ [r]) := by
  intro acc
  induction acc with
  | nil =>
    intro r e
    simp [dictAppend]
  | cons q rest ih =>
    intro r e
    by_cases hqr : q.1 = r
    · subst hqr
      rw [dictAppend_cons_eq e rfl, List.map_cons, List.map_cons,
        if_pos (List.mem_cons_self q.1 (rest.map Prod.fst))]
    · rw [dictAppend_cons_ne e hqr, List.map_cons, List.map_cons, ih r e]
      by_cases hmem : r ∈ rest.map Prod.fst
      · rw [if_pos hmem, if_pos (List.mem_cons_of_mem _ hmem)]
      · rw [if_neg hmem, if_neg ?_]
        · rw [List.cons_append]
        · intro hc
          rcases List.mem_cons.mp hc with hc1 | hc2
          · exact hqr hc1.symm
          · exact hmem hc2

theorem dictAppend_members : ∀ (acc : List (Nat × List Nat)) (r e : Nat),
    (acc.map Prod.fst).Nodup →
    ∀ p ∈ dictAppend acc r e,
    (p ∈ acc ∧ p.1 ≠ r) ∨
    (∃ l, (r, l) ∈ acc ∧ p = (r, l ++ [e])) ∨
    (r ∉ acc.map Prod.fst ∧ p = (r, [e])) := by
  intro acc
  induction acc with
  | nil =>
    intro r e _ p hp
    simp only [dictAppend, List.mem_singleton] at hp
    exact Or.inr (Or.inr ⟨by simp, hp⟩)
  | cons q rest ih =>
    intro r e hnd p hp
    rw [List.map_cons, List.nodup_cons] at hnd
    by_cases hqr : q.1 = r
    · rw [dictAppend_cons_eq e hqr] at hp
      rcases List.mem_cons.mp hp with hp1 | hp2
      · refine Or.inr (Or.inl ⟨q.2, ?_, by rw [hp1, hqr]⟩)
        rw [← hqr]
        exact List.mem_cons_self _ _
      · refine Or.inl ⟨List.mem_cons_of_mem q hp2, ?_⟩
        intro hc
        apply hnd.1
        rw [hqr, ← hc]
        exact List.mem_map_of_mem Prod.fst hp2
    · rw [dictAppend_cons_ne e hqr] at hp
      rcases List.mem_cons.mp hp with hp1 | hp2
      · exact Or.inl ⟨hp1 ▸ List.mem_cons_self q rest, hp1 ▸ hqr⟩
      · rcases ih r e hnd.2 p hp2 with h1 | h2 | h3
        · exact Or.inl ⟨List.mem_cons_of_mem q h1.1, h1.2⟩
        · obtain ⟨l, hl, hpl⟩ := h2
          exact Or.inr (Or.inl ⟨l, List.mem_cons_of_mem q hl, hpl⟩)
        · refine Or.inr (Or.inr ⟨?_, h3.2⟩)
          rw [List.map_cons, List.mem_cons]
          rintro (hc1 | hc2)
          · exact hqr hc1.symm
          · exact h3.1 hc2

theorem dictAppend_good (f : Nat → Nat) (e : Nat)
    (acc : List (Nat × List Nat)) (processed : List Nat)
    (h1 : ∀ r g, (r, g) ∈ acc →
      g = processed.filter (fun a => decide (f a = r)))
    (h2 : (acc.map Prod.fst).Nodup)
    (h3 : ∀ r, r ∈ acc.map Prod.fst ↔ r ∈ processed.map f) :
    (∀ r g, (r, g) ∈ dictAppend acc (f e) e →
      g = (processed ++ [e]).filter (fun a => decide (f a = r))) ∧
    ((dictAppend acc (f e) e).map Prod.fst).Nodup ∧
    (∀ r, r ∈ (dictAppend acc (f e) e).map Prod.fst ↔
      r ∈ (processed ++ [e]).map f) := by
  refine ⟨?_, ?_, ?_⟩
  · intro r g hp
    rcases dictAppend_members acc (f e) e h2 (r, g) hp with hA | hB | hC
    · have hne : r ≠ f e := hA.2
      have hsing : [e].filter (fun a => decide (f a = r)) = [] := by
        simp [Ne.symm hne]
      rw [h1 r g hA.1, List.filter_append, hsing, List.append_nil]
    · obtain ⟨l, hl, hpl⟩ := hB
      rw [Prod.mk.injEq] at hpl
      obtain ⟨hr, hg⟩ := hpl
      subst hr
      subst hg
      have hsing : [e].filter (fun a => decide (f a = f e)) = [e] := by
        simp
      rw [h1 (f e) l hl, List.filter_append, hsing]
    · obtain ⟨hnotin, hpe⟩ := hC
      rw [Prod.mk.injEq] at hpe
      obtain ⟨hr, hg⟩ := hpe
      subst hr
      subst hg
      have hfil : processed.filter (fun a => decide (f a = f e)) = [] := by
        rw [List.filter_eq_nil_iff]
        intro a ha hfa
        have hfa' : f a = f e := of_decide_eq_true hfa
        have hmm : f a ∈ processed.map f := List.mem_map_of_mem f ha
        rw [hfa'] at hmm
        exact hnotin ((h3 (f e)).mpr hmm)
      have hsing : [e].filter (fun a => decide (f a = f e)) = [e] := by
        simp
      rw [List.filter_append, hfil, List.nil_append, hsing]
  · rw [dictAppend_fst]
    by_cases hmem : f e ∈ acc.map Prod.fst
    · rw [if_pos hmem]
      exact h2
    · rw [if_neg hmem]
      refine List.Nodup.append h2 (List.nodup_singleton _) ?_
      intro a ha hax
      rw [List.mem_singleton] at hax
      subst hax
      exact hmem ha
  · intro r
    rw [dictAppend_fst]
    by_cases hmem : f e ∈ acc.map Prod.fst
    · rw [if_pos hmem]
      simp only [List.map_append, List.map_singleton, List.mem_append,
        List.mem_singleton]
      rw [h3 r]
      constructor
      · exact fun hmr => Or.inl hmr
      · rintro (hmr | hmr)
        · exact hmr
        · subst hmr
          exact (h3 (f e)).mp hmem
    · rw [if_neg hmem]
      simp only [List.map_append, List.map_singleton, List.mem_append,
        List.mem_singleton]
      rw [h3 r]

theorem foldl_dictAppend_good (f : Nat → Nat) :
    ∀ (l : List Nat) (acc : List (Nat × List Nat)) (processed : List Nat),
    (∀ r g, (r, g) ∈ acc →
      g = processed.filter (fun a => decide (f a = r))) →
    ((acc.map Prod.fst).Nodup) →
    (∀ r, r ∈ acc.map Prod.fst ↔ r ∈ processed.map f) →
    (∀ r g, (r, g) ∈ l.foldl (fun a b => dictAppend a (f b) b) acc →
      g = (processed ++ l).filter (fun a => decide (f a = r))) ∧
    ((l.foldl (fun a b => dictAppend a (f b) b) acc).map Prod.fst).Nodup ∧
    (∀ r, r ∈ (l.foldl (fun a b => dictAppend a (f b) b) acc).map Prod.fst ↔
      r ∈ (processed ++ l).map f) := by
  intro l
  induction l with
  | nil =>
    intro acc processed h1 h2 h3
    refine ⟨?_, h2, ?_⟩
    · intro r g hp
      rw [List.append_nil]
      exact h1 r g hp
    · intro r
      rw [List.append_nil]
      exact h3 r
  | cons e rest ih =>
    intro acc processed h1 h2 h3
    obtain ⟨g1, g2, g3⟩ := dictAppend_good f e acc processed h1 h2 h3
    have hres := ih (dictAppend acc (f e) e) (processed ++ [e]) g1 g2 g3
    have hassoc : processed ++ [e] ++ rest = processed ++ e :: rest := by
      simp
    rw [hassoc] at hres
    exact hres

theorem foldl_dictAppend_congr {f g : Nat → Nat} :
    ∀ (l : List Nat) (acc : List (Nat × List Nat)),
    (∀ e ∈ l, f e = g e) →
    l.foldl (fun a b => dictAppend a (f b) b) acc =
      l.foldl (fun a b => dictAppend a (g b) b) acc := by
  intro l
  induction l with
  | nil =>
    intro acc _
    rfl
  | cons e rest ih =>
    intro acc h
    simp only [List.foldl_cons]
    rw [h e (List.mem_cons_self e rest)]
    exact ih _ fun a ha => h a (List.mem_cons_of_mem e ha)

theorem subsetsLoop_cons_ok {s s1 : MyDisjointSet} {e pe : Nat}
    (rest : List Nat) (acc : List (Nat × List Nat))
    (hge : s.getitem e = (s1, Except.ok pe)) :
    subsetsLoop s (e :: rest) acc =
      subsetsLoop s1 rest (dictAppend acc pe e) := by
  simp only [subsetsLoop, hge]

theorem subsetsLoop_spec : ∀ (l : List Nat) (s : MyDisjointSet)
    (acc : List (Nat × List Nat)),
    s.Inv → (∀ e ∈ l, e ∈ s.keys) →
    (subsetsLoop s l acc).1.Inv ∧
    (subsetsLoop s l acc).1.keys = s.keys ∧
    (subsetsLoop s l acc).1.size = s.size ∧
    (∀ z ∈ s.keys, proot (subsetsLoop s l acc).1 z = proot s z) ∧
    (subsetsLoop s l acc).2 =
      l.foldl (fun a b => dictAppend a (proot s b) b) acc := by
  intro l
  induction l with
  | nil =>
    intro s acc h _
    exact ⟨h, rfl, rfl, fun z _ => rfl, rfl⟩
  | cons e rest ih =>
    intro s acc h hl
    have he : e ∈ s.keys := hl e (List.mem_cons_self e rest)
    obtain ⟨hgok, hk1, hsz1, hInv1, _, hpr1⟩ := getitem_spec s h he
    have hge := getitem_pair s h he
    rw [subsetsLoop_cons_ok rest acc hge]
    have hrest : ∀ a ∈ rest, a ∈ (s.getitem e).1.keys := by
      intro a ha
      rw [hk1]
      exact hl a (List.mem_cons_of_mem e ha)
    obtain ⟨ih1, ih2, ih3, ih4, ih5⟩ :=
      ih (s.getitem e).1 (dictAppend acc (proot s e) e) hInv1 hrest
    refine ⟨ih1, by rw [ih2, hk1], by rw [ih3, hsz1], ?_, ?_⟩
    · intro z hz
      rw [ih4 z (by rw [hk1]; exact hz), hpr1 z hz]
    · rw [ih5, List.foldl_cons]
      exact foldl_dictAppend_congr rest _
        fun a ha => hpr1 a (hl a (List.mem_cons_of_mem e ha))

theorem subsets_spec (s : MyDisjointSet) (h : s.Inv) :
    (s.subsets).1.Inv ∧
    (s.subsets).1.keys = s.keys ∧
    (s.subsets).1.size = s.size ∧
    (∀ z ∈ s.keys, proot (s.subsets).1 z = proot s z) ∧
    (∀ r g, (r, g) ∈ (s.subsets).2 →
      g = s.keys.filter (fun a => decide (proot s a = r))) ∧
    ((s.subsets).2.map Prod.fst).Nodup ∧
    (∀ r, r ∈ (s.subsets).2.map Prod.fst ↔ r ∈ s.keys.map (proot s)) := by
  have hsub : ∀ e ∈ s.keys, e ∈ s.keys := fun e he => he
  obtain ⟨l1, l2, l3, l4, l5⟩ := subsetsLoop_spec s.keys s [] h hsub
  obtain ⟨g1, g2, g3⟩ := foldl_dictAppend_good (proot s) s.keys [] []
    (by intro r g hp; cases hp) List.nodup_nil (by intro r; simp)
  have hsv : s.subsets = subsetsLoop s s.keys [] := rfl
  rw [hsv, l5]
  rw [List.nil_append] at g1 g3
  exact ⟨l1, l2, l3, l4, g1, g2, g3⟩

theorem empty_inv : MyDisjointSet.empty.Inv :=
  ⟨List.nodup_nil, fun x hx => absurd hx (List.not_mem_nil x),
    fun x hx => absurd hx (List.not_mem_nil x)⟩

theorem add_inv (s : MyDisjointSet) (x : Nat) (h : s.Inv) :
    (s.add x).1.Inv := by
  by_cases hx : x ∈ s.keys
  · rw [add_mem s hx]
    exact h
  · exact (add_spec s h hx).1

theorem merge_inv (s : MyDisjointSet) (x y : Nat) (h : s.Inv) :
    (s.merge x y).1.Inv := by
  by_cases hx : x ∈ s.keys
  · by_cases hy : y ∈ s.keys
    · exact (merge_spec s h hx hy).2.2.1
    · have hgx := getitem_pair s h hx
      have hy1 : y ∉ (s.getitem x).1.keys := by
        rw [(getitem_spec s h hx).2.1]
        exact hy
      have hgy := getitem_not_mem (s.getitem x).1 hy1
      rw [merge_def_err2 hgx hgy]
      exact (getitem_spec s h hx).2.2.2.1
  · rw [merge_def_err1 y (getitem_not_mem s hx)]
    exact h

theorem connected_inv (s : MyDisjointSet) (x y : Nat) (h : s.Inv) :
    (s.connected x y).1.Inv := by
  by_cases hx : x ∈ s.keys
  · by_cases hy : y ∈ s.keys
    · exact (connected_spec s h hx hy).2.2.2.1
    · have hgx := getitem_pair s h hx
      have hy1 : y ∉ (s.getitem x).1.keys := by
        rw [(getitem_spec s h hx).2.1]
        exact hy
      have hgy := getitem_not_mem (s.getitem x).1 hy1
      rw [connected_def_err2 hgx hgy]
      exact (getitem_spec s h hx).2.2.2.1
  · rw [connected_def_err1 y (getitem_not_mem s hx)]
    exact h

theorem subset_inv (s : MyDisjointSet) (x : Nat) (h : s.Inv) :
    (s.subset x).1.Inv := by
  by_cases hx : x ∈ s.keys
  · exact (subset_spec s h hx).2.1
  · rw [subset_def_err (getitem_not_mem s hx)]
    exact h

theorem subsets_inv (s : MyDisjointSet) (h : s.Inv) :
    (s.subsets).1.Inv :=
  (subsets_spec s h).1

theorem reachable_inv : ∀ s, Reachable s → s.Inv := by
  intro s h
  induction h with
  | empty => exact empty_inv
  | add s x _ ih => exact add_inv s x ih
  | merge s x y _ ih => exact merge_inv s x y ih
  | getitem s x _ ih => exact (getitem_inv s x ih).1
  | connected s x y _ ih => exact connected_inv s x y ih
  | subset s x _ ih => exact subset_inv s x ih
  | subsets s _ ih => exact subsets_inv s ih

theorem findVisited_succ_step (fuel : Nat) (pm : Nat → Nat) (p : Nat)
    (h : pm p ≠ p) :
    findVisited (fuel + 1) pm p =
      p :: findVisited fuel (Function.update pm p (pm (pm p)))
        (Function.update pm p (pm (pm p)) p) := by
  simp [findVisited, h]

theorem findVisited_succ_root (fuel : Nat) (pm : Nat → Nat) (p : Nat)
    (h : pm p = p) : findVisited (fuel + 1) pm p = [p] := by
  simp [findVisited, h]

theorem findAux_untouched : ∀ (fuel : Nat) (pm : Nat → Nat) (p z : Nat),
    (findAux fuel pm p).1 z ≠ pm z → z ∈ findVisited fuel pm p := by
  intro fuel
  induction fuel with
  | zero =>
    intro pm p z hz
    exact absurd rfl hz
  | succ fuel ih =>
    intro pm p z hz
    by_cases hpp : pm p = p
    · rw [findAux_succ_root fuel pm p hpp] at hz
      exact absurd rfl hz
    · rw [findAux_succ_step fuel pm p hpp] at hz
      rw [findVisited_succ_step fuel pm p hpp]
      by_cases hzp : z = p
      · subst hzp
        exact List.mem_cons_self z _
      · refine List.mem_cons_of_mem p (ih _ _ z ?_)
        intro hc
        apply hz
        rw [hc, Function.update_noteq hzp]

/-- C1: the stored `size` at a root fails to equal the cardinality of the
root's partition on a reachable state: after `add(0)` and `merge(0, 0)` the
element `0` is still a root whose subset is exactly `[0]`, but `size[0]`
has been doubled to `2` (the code's else branch runs even when the two
roots coincide, contradicting the comment in `merge` that
`__size__[parent]` stores the subset size). -/
theorem C1_size_invariant_violated :
    Reachable ((MyDisjointSet.empty.add 0).1.merge 0 0).1 ∧
    (((MyDisjointSet.empty.add 0).1.merge 0 0).1.HM 0 = 0) ∧
    ((((MyDisjointSet.empty.add 0).1.merge 0 0).1.subset 0).2 =
      Except.ok [0]) ∧
    (((MyDisjointSet.empty.add 0).1.merge 0 0).1.size 0 = 2) := by
  refine ⟨Reachable.merge _ 0 0 (Reachable.add _ 0 Reachable.empty),
    rfl, rfl, rfl⟩

/-- C2: `merge(0, 0)` on the state tracking only `0` is not a no-op: it
completes without error but changes the size mapping at `0` from `1` to
`2`. -/
theorem C2_self_merge_not_noop :
    (((MyDisjointSet.empty.add 0).1.merge 0 0).2 = Except.ok ()) ∧
    ((MyDisjointSet.empty.add 0).1.size 0 = 1) ∧
    (((MyDisjointSet.empty.add 0).1.merge 0 0).1.size 0 = 2) := by
  refine ⟨rfl, rfl, rfl⟩

/-- C7 counterexample: `add` on an already-tracked element returns `None`
(modelled `none`), not the element's representative, refuting the claim
that `add(x)` returns the representative in both cases. -/
theorem C7_counterexample :
    (((MyDisjointSet.empty.add 0).1.add 0).2 = none) ∧
    ((none : Option Nat) ≠ some 0) := by
  exact ⟨rfl, by decide⟩

/-- C7 (amended): `add` never errors; if `x` is already tracked it is a
no-op returning nothing (Python `None`), otherwise it inserts `x` as a
singleton root with `parent[x] = x`, `size[x] = 1`, touching no other
entry, and returns `x`. -/
theorem C7_add_amended (s : MyDisjointSet) (x : Nat) :
    (x ∈ s.keys → s.add x = (s, none)) ∧
    (x ∉ s.keys →
      (s.add x).2 = some x ∧
      (s.add x).1.keys = s.keys ++ [x] ∧
      (s.add x).1.HM x = x ∧
      (s.add x).1.size x = 1 ∧
      (∀ z, z ≠ x → (s.add x).1.HM z = s.HM z ∧
        (s.add x).1.size z = s.size z)) := by
  constructor
  · intro hx
    exact add_mem s hx
  · intro hx
    rw [add_not_mem s hx]
    refine ⟨rfl, rfl, Function.update_same x x s.HM,
      Function.update_same x 1 s.size, ?_⟩
    intro z hz
    exact ⟨Function.update_noteq hz x s.HM, Function.update_noteq hz 1 s.size⟩

/-- C7 witness: the amended claim at the empty structure and element 0. -/
theorem C7_witness :
    (0 ∉ MyDisjointSet.empty.keys) ∧
    (MyDisjointSet.empty.add 0).2 = some 0 :=
  ⟨by decide, ((C7_add_amended MyDisjointSet.empty 0).2 (by decide)).1⟩

/-- C4: for tracked `x`, `y` whose resolved roots `rx = find(x)`,
`ry = find(y)` are distinct, `merge(x, y)` succeeds and: if
`size[rx] > size[ry]` then `ry`'s parent becomes `rx` and `size[rx]`
becomes the sum of the two sizes; otherwise (ties included, so `y`'s side
wins ties) `rx`'s parent becomes `ry` and `size[ry]` becomes the sum. -/
theorem C4_merge_by_size (s s1 s2 : MyDisjointSet) (x y rx ry : Nat)
    (hgx : s.getitem x = (s1, Except.ok rx))
    (hgy : s1.getitem y = (s2, Except.ok ry))
    (_hne : rx ≠ ry) :
    (s.merge x y).2 = Except.ok () ∧
    (if s2.size rx > s2.size ry then
      (s.merge x y).1.HM ry = rx ∧
      (s.merge x y).1.size rx = s2.size rx + s2.size ry
    else
      (s.merge x y).1.HM rx = ry ∧
      (s.merge x y).1.size ry = s2.size rx + s2.size ry) := by
  rw [merge_def_ok hgx hgy]
  by_cases hcond : s2.size rx > s2.size ry
  · rw [if_pos hcond, if_pos hcond]
    exact ⟨rfl, Function.update_same ry rx s2.HM,
      Function.update_same rx (s2.size rx + s2.size ry) s2.size⟩
  · rw [if_neg hcond, if_neg hcond]
    exact ⟨rfl, Function.update_same rx ry s2.HM,
      Function.update_same ry (s2.size rx + s2.size ry) s2.size⟩

/-- C4 witness: merging the two singletons 0 and 1 (a tie, so 0's root is
attached under 1's root). -/
theorem C4_witness :
    ((MyDisjointSet.empty.add 0).1.add 1).1.getitem 0 =
      (((MyDisjointSet.empty.add 0).1.add 1).1, Except.ok 0) ∧
    ((MyDisjointSet.empty.add 0).1.add 1).1.getitem 1 =
      (((MyDisjointSet.empty.add 0).1.add 1).1, Except.ok 1) ∧
    (0 : Nat) ≠ 1 ∧
    ((((MyDisjointSet.empty.add 0).1.add 1).1.merge 0 1)).2 =
      Except.ok () :=
  ⟨rfl, rfl, by decide,
    (C4_merge_by_size ((MyDisjointSet.empty.add 0).1.add 1).1
      ((MyDisjointSet.empty.add 0).1.add 1).1
      ((MyDisjointSet.empty.add 0).1.add 1).1 0 1 0 1 rfl rfl (by decide)).1⟩

/-- C5: on an invariant-satisfying state, `find(x)` for tracked `x`
returns the root of `x` (the fixed point `parent[p] == p` reached by
following parent links, a root both before and after the call), leaves the
tracked-element set and the whole `size` mapping unchanged, and mutates
`parent` entries only at nodes visited by the path-halving loop. -/
theorem C5_find_path_halving (s : MyDisjointSet) (x : Nat) (h : s.Inv)
    (hx : x ∈ s.keys) :
    (s.getitem x).2 = Except.ok (proot s x) ∧
    isRoot s.HM (proot s x) ∧
    isRoot (s.getitem x).1.HM (proot s x) ∧
    (s.getitem x).1.keys = s.keys ∧
    (s.getitem x).1.size = s.size ∧
    (∀ z, (s.getitem x).1.HM z ≠ s.HM z →
      z ∈ findVisited s.keys.length s.HM x) := by
  obtain ⟨h1, h2, h3, h4, h5, h6⟩ := getitem_spec s h hx
  refine ⟨h1, proot_isRoot h hx, (h5 x hx).2, h2, h3, ?_⟩
  intro z hz
  have hHM : (s.getitem x).1.HM = (findAux s.keys.length s.HM x).1 := by
    rw [getitem_mem_def s hx]
  rw [hHM] at hz
  exact findAux_untouched s.keys.length s.HM x z hz

/-- C5 witness: the find specification applied to element 0 of the
structure tracking 0 and 1. -/
theorem C5_witness :
    ((MyDisjointSet.empty.add 0).1.add 1).1.Inv ∧
    0 ∈ ((MyDisjointSet.empty.add 0).1.add 1).1.keys ∧
    (((MyDisjointSet.empty.add 0).1.add 1).1.getitem 0).2 =
      Except.ok (proot ((MyDisjointSet.empty.add 0).1.add 1).1 0) :=
  ⟨by decide, by decide,
    (C5_find_path_halving ((MyDisjointSet.empty.add 0).1.add 1).1 0
      (by decide) (by decide)).1⟩

/-- C3 counterexample: on the reachable state built by adding 1, 2, 3, 4
and merging (1,2), (3,4), (2,4), the element 1 sits two links below its
root.  Calling `merge(1, 99)` with 99 untracked raises `KeyError 99`, yet
the parent entry of 1 has been rewritten from 2 to 4 by the path halving
performed while resolving `find(1)` before the validation of 99 — so the
state is not left unmodified. -/
theorem C3_counterexample :
    ((((((((MyDisjointSet.empty.add 1).1.add 2).1.add 3).1.add
        4).1.merge 1 2).1.merge 3 4).1.merge 2 4).1.merge 1 99).2 =
      Except.error 99 ∧
    (((((((MyDisjointSet.empty.add 1).1.add 2).1.add 3).1.add
        4).1.merge 1 2).1.merge 3 4).1.merge 2 4).1.HM 1 = 2 ∧
    ((((((((MyDisjointSet.empty.add 1).1.add 2).1.add 3).1.add
        4).1.merge 1 2).1.merge 3 4).1.merge 2 4).1.merge 1 99).1.HM 1 =
      4 := by
  refine ⟨rfl, rfl, rfl⟩

/-- C3 (amended): invoking `find`, `merge`, `connected` or `subset` on an
untracked element raises `KeyError` (the NotFound condition).  When the
untracked element is the first one resolved, the state is exactly
unchanged.  When `merge(x, y)` or `connected(x, y)` is called with `x`
tracked and `y` untracked, the tracked-element set, the `size` mapping and
the partition (the root of every tracked element) are unchanged, but
`parent` entries along `x`'s path may have been compressed before the
error is detected. -/
theorem C3_notfound_amended (s : MyDisjointSet) (x y : Nat) (h : s.Inv)
    (hy : y ∉ s.keys) :
    s.getitem y = (s, Except.error y) ∧
    s.subset y = (s, Except.error y) ∧
    s.merge y x = (s, Except.error y) ∧
    s.connected y x = (s, Except.error y) ∧
    (∃ e, (s.merge x y).2 = Except.error e) ∧
    (s.merge x y).1.keys = s.keys ∧
    (s.merge x y).1.size = s.size ∧
    (∀ z ∈ s.keys, proot (s.merge x y).1 z = proot s z) ∧
    (∃ e, (s.connected x y).2 = Except.error e) ∧
    (s.connected x y).1.keys = s.keys ∧
    (s.connected x y).1.size = s.size ∧
    (∀ z ∈ s.keys, proot (s.connected x y).1 z = proot s z) := by
  have hgy := getitem_not_mem s hy
  refine ⟨hgy, subset_def_err hgy, merge_def_err1 x hgy,
    connected_def_err1 x hgy, ?_⟩
  by_cases hx : x ∈ s.keys
  · have hgx := getitem_pair s h hx
    obtain ⟨_, hk1, hsz1, hInv1, _, hpr1⟩ := getitem_spec s h hx
    have hy1 : y ∉ (s.getitem x).1.keys := by
      rw [hk1]
      exact hy
    have hgy1 := getitem_not_mem (s.getitem x).1 hy1
    rw [merge_def_err2 hgx hgy1, connected_def_err2 hgx hgy1]
    exact ⟨⟨y, rfl⟩, hk1, hsz1, hpr1, ⟨y, rfl⟩, hk1, hsz1, hpr1⟩
  · have hgx := getitem_not_mem s hx
    rw [merge_def_err1 y hgx, connected_def_err1 y hgx]
    exact ⟨⟨x, rfl⟩, rfl, rfl, fun z _ => rfl, ⟨x, rfl⟩, rfl, rfl,
      fun z _ => rfl⟩

/-- C3 witness: the amended claim at the structure tracking only 0, with
untracked element 5. -/
theorem C3_witness :
    (MyDisjointSet.empty.add 0).1.Inv ∧
    5 ∉ (MyDisjointSet.empty.add 0).1.keys ∧
    (MyDisjointSet.empty.add 0).1.getitem 5 =
      ((MyDisjointSet.empty.add 0).1, Except.error 5) :=
  ⟨by decide, by decide,
    (C3_notfound_amended (MyDisjointSet.empty.add 0).1 0 5 (by decide)
      (by decide)).1⟩

theorem subsets_length (s : MyDisjointSet) (h : s.Inv) :
    ((s.subsets).2).length = (s.keys.map (proot s)).toFinset.card := by
  obtain ⟨_, _, _, _, _, hnd, hiff⟩ := subsets_spec s h
  have hlen : ((s.subsets).2).length =
      ((s.subsets).2.map Prod.fst).length := by
    rw [List.length_map]
  rw [hlen, ← List.toFinset_card_of_nodup hnd]
  congr 1
  apply Finset.ext
  intro r
  rw [List.mem_toFinset, List.mem_toFinset]
  exact hiff r

theorem image_link_card (K : List Nat) (f : Nat → Nat) (rl rw2 : Nat)
    (hrl : rl ∈ K.map f) (hrw : rw2 ∈ K.map f) (hne : rl ≠ rw2) :
    ((K.map (fun a => if f a = rl then rw2 else f a)).toFinset).card + 1 =
      (K.map f).toFinset.card := by
  have hset : (K.map (fun a => if f a = rl then rw2 else f a)).toFinset =
      (K.map f).toFinset.erase rl := by
    apply Finset.ext
    intro r
    rw [Finset.mem_erase, List.mem_toFinset, List.mem_toFinset]
    constructor
    · intro hmem
      rw [List.mem_map] at hmem
      obtain ⟨a, ha, hfa⟩ := hmem
      by_cases hcase : f a = rl
      · rw [if_pos hcase] at hfa
        subst hfa
        exact ⟨Ne.symm hne, hrw⟩
      · rw [if_neg hcase] at hfa
        subst hfa
        exact ⟨hcase, List.mem_map_of_mem f ha⟩
    · intro hmem
      obtain ⟨hner, hmem⟩ := hmem
      rw [List.mem_map] at hmem ⊢
      obtain ⟨a, ha, hfa⟩ := hmem
      refine ⟨a, ha, ?_⟩
      rw [if_neg (by rw [hfa]; exact hner), hfa]
  rw [hset]
  have hrlF : rl ∈ (K.map f).toFinset := List.mem_toFinset.mpr hrl
  rw [Finset.card_erase_of_mem hrlF]
  have hpos : 0 < (K.map f).toFinset.card := Finset.card_pos.mpr ⟨rl, hrlF⟩
  omega

/-- C6: for tracked `x`, `y` on an invariant-satisfying state: after
`merge(x, y)` the query `connected(x, y)` returns true, and the number of
groups returned by `subsets()` is unchanged when `x` and `y` were already
connected (equal roots) and decreases by exactly one when they were
disconnected. -/
theorem C6_merge_monotonic (s : MyDisjointSet) (x y : Nat) (h : s.Inv)
    (hx : x ∈ s.keys) (hy : y ∈ s.keys) :
    ((s.merge x y).1.connected x y).2 = Except.ok true ∧
    (proot s x = proot s y →
      (((s.merge x y).1.subsets)).2.length = ((s.subsets).2).length) ∧
    (proot s x ≠ proot s y →
      (((s.merge x y).1.subsets)).2.length + 1 =
        ((s.subsets).2).length) := by
  obtain ⟨hok, hkM, hInvM, hsame, hdiff⟩ := merge_spec s h hx hy
  have hxM : x ∈ (s.merge x y).1.keys := by
    rw [hkM]
    exact hx
  have hyM : y ∈ (s.merge x y).1.keys := by
    rw [hkM]
    exact hy
  have hproots_eq : proot (s.merge x y).1 x = proot (s.merge x y).1 y := by
    by_cases hxy : proot s x = proot s y
    · rw [hsame hxy x hx, hsame hxy y hy, hxy]
    · rw [hdiff hxy x hx, hdiff hxy y hy]
      by_cases hcond : s.size (proot s x) > s.size (proot s y)
      · rw [if_pos hcond, if_pos hcond, if_neg hxy, if_pos rfl]
      · rw [if_neg hcond, if_neg hcond, if_pos rfl,
          if_neg (fun hc => hxy hc.symm)]
  constructor
  · obtain ⟨hc1, _, _, _, _⟩ := connected_spec (s.merge x y).1 hInvM hxM hyM
    rw [hc1, hproots_eq]
    simp
  constructor
  · intro hxy
    rw [subsets_length (s.merge x y).1 hInvM, subsets_length s h, hkM]
    have hmapeq : s.keys.map (proot (s.merge x y).1) =
        s.keys.map (proot s) :=
      List.map_congr_left fun a ha => hsame hxy a ha
    rw [hmapeq]
  · intro hxy
    rw [subsets_length (s.merge x y).1 hInvM, subsets_length s h, hkM]
    by_cases hcond : s.size (proot s x) > s.size (proot s y)
    · have hmapeq : s.keys.map (proot (s.merge x y).1) =
          s.keys.map (fun a =>
            if proot s a = proot s y then proot s x else proot s a) :=
        List.map_congr_left fun a ha => by
          rw [hdiff hxy a ha, if_pos hcond]
      rw [hmapeq]
      exact image_link_card s.keys (proot s) (proot s y) (proot s x)
        (List.mem_map_of_mem (proot s) hy)
        (List.mem_map_of_mem (proot s) hx) (fun hc => hxy hc.symm)
    · have hmapeq : s.keys.map (proot (s.merge x y).1) =
          s.keys.map (fun a =>
            if proot s a = proot s x then proot s y else proot s a) :=
        List.map_congr_left fun a ha => by
          rw [hdiff hxy a ha, if_neg hcond]
      rw [hmapeq]
      exact image_link_card s.keys (proot s) (proot s x) (proot s y)
        (List.mem_map_of_mem (proot s) hx)
        (List.mem_map_of_mem (proot s) hy) hxy

/-- C6 witness: merging the two singletons 0 and 1 makes them connected. -/
theorem C6_witness :
    ((MyDisjointSet.empty.add 0).1.add 1).1.Inv ∧
    0 ∈ ((MyDisjointSet.empty.add 0).1.add 1).1.keys ∧
    1 ∈ ((MyDisjointSet.empty.add 0).1.add 1).1.keys ∧
    (((((MyDisjointSet.empty.add 0).1.add 1).1.merge 0
      1).1.connected 0 1)).2 = Except.ok true :=
  ⟨by decide, by decide, by decide,
    (C6_merge_monotonic ((MyDisjointSet.empty.add 0).1.add 1).1 0 1
      (by decide) (by decide) (by decide)).1⟩

/-- C8: on an invariant-satisfying state, `subsets()` maps each current
root (a tracked, self-parented element) to the list of tracked elements
whose resolved root it is; the group keys are distinct, groups of distinct
roots never share an element, and a tracked element belongs to some group
while every group member is tracked — so every tracked element appears in
exactly one group. -/
theorem C8_subsets_partition (s : MyDisjointSet) (h : s.Inv) :
    (∀ r g, (r, g) ∈ (s.subsets).2 →
      r ∈ s.keys ∧ s.HM r = r ∧ g.Nodup ∧
      (∀ e, e ∈ g ↔ (e ∈ s.keys ∧ proot s e = r))) ∧
    ((s.subsets).2.map Prod.fst).Nodup ∧
    (∀ r g r' g', (r, g) ∈ (s.subsets).2 → (r', g') ∈ (s.subsets).2 →
      r ≠ r' → ∀ e ∈ g, e ∉ g') ∧
    (∀ e, e ∈ s.keys ↔ ∃ r g, (r, g) ∈ (s.subsets).2 ∧ e ∈ g) := by
  obtain ⟨_, _, _, _, hgrp, hnd, hiff⟩ := subsets_spec s h
  have hmemg : ∀ r g, (r, g) ∈ (s.subsets).2 →
      ∀ e, e ∈ g ↔ (e ∈ s.keys ∧ proot s e = r) := by
    intro r g hrg e
    rw [hgrp r g hrg, List.mem_filter]
    constructor
    · intro ⟨h1, h2⟩
      exact ⟨h1, of_decide_eq_true h2⟩
    · intro ⟨h1, h2⟩
      exact ⟨h1, decide_eq_true h2⟩
  refine ⟨?_, hnd, ?_, ?_⟩
  · intro r g hrg
    have hrfst : r ∈ (s.subsets).2.map Prod.fst :=
      List.mem_map_of_mem Prod.fst hrg
    have hrimg := (hiff r).mp hrfst
    rw [List.mem_map] at hrimg
    obtain ⟨a, ha, hfa⟩ := hrimg
    refine ⟨?_, ?_, ?_, hmemg r g hrg⟩
    · rw [← hfa]
      exact proot_mem h ha
    · rw [← hfa]
      exact proot_isRoot h ha
    · rw [hgrp r g hrg]
      exact List.Nodup.filter _ h.1
  · intro r g r' g' hrg hrg' hne e heg
    intro heg'
    have h1 := ((hmemg r g hrg e).mp heg).2
    have h2 := ((hmemg r' g' hrg' e).mp heg').2
    exact hne (h1 ▸ h2 ▸ rfl)
  · intro e
    constructor
    · intro he
      have hrfst : proot s e ∈ (s.subsets).2.map Prod.fst :=
        (hiff (proot s e)).mpr (List.mem_map_of_mem (proot s) he)
      rw [List.mem_map] at hrfst
      obtain ⟨p, hp, hp1⟩ := hrfst
      have hpd : (proot s e, p.2) ∈ (s.subsets).2 := by
        rw [← hp1]
        exact hp
      exact ⟨proot s e, p.2, hpd, (hmemg (proot s e) p.2 hpd e).mpr ⟨he, rfl⟩⟩
    · intro ⟨r, g, hrg, heg⟩
      exact ((hmemg r g hrg e).mp heg).1

/-- C8 witness: the partition property of `subsets()` at the structure
tracking 0 and 1, instantiated at element 0. -/
theorem C8_witness :
    ((MyDisjointSet.empty.add 0).1.add 1).1.Inv ∧
    (0 ∈ ((MyDisjointSet.empty.add 0).1.add 1).1.keys ↔
      ∃ r g, (r, g) ∈ ((((MyDisjointSet.empty.add 0).1.add 1).1.subsets)).2 ∧
        0 ∈ g) :=
  ⟨by decide,
    (C8_subsets_partition ((MyDisjointSet.empty.add 0).1.add 1).1
      (by decide)).2.2.2 0⟩

/-- C9: every reachable state satisfies the acyclicity invariant — the
dictionary keys are distinct, parent links stay among tracked elements,
and every tracked element reaches a self-parented root within
`keys.length` parent-following steps (so there is no cycle other than the
root self-loop); the invariant is established for the empty structure and
preserved by every operation (the reachability induction), and
consequently the `find` loop terminates for every tracked element: with
fuel `keys.length` it returns the element's root, a fixed point of the
parent map. -/
theorem C9_acyclic_reachable (s : MyDisjointSet) (h : Reachable s) :
    s.Inv ∧
    ∀ x ∈ s.keys,
      (s.getitem x).2 = Except.ok (proot s x) ∧
      isRoot s.HM (proot s x) ∧
      isRoot (s.getitem x).1.HM (proot s x) := by
  have hInv : s.Inv := reachable_inv s h
  refine ⟨hInv, ?_⟩
  intro x hx
  obtain ⟨h1, _, _, _, h5, _⟩ := getitem_spec s hInv hx
  exact ⟨h1, proot_isRoot hInv hx, (h5 x hx).2⟩

/-- C9 witness: the invariant and find-termination at the reachable state
obtained by a single add. -/
theorem C9_witness :
    (MyDisjointSet.empty.add 0).1.Inv ∧
    ∀ x ∈ (MyDisjointSet.empty.add 0).1.keys,
      ((MyDisjointSet.empty.add 0).1.getitem x).2 =
        Except.ok (proot (MyDisjointSet.empty.add 0).1 x) ∧
      isRoot (MyDisjointSet.empty.add 0).1.HM
        (proot (MyDisjointSet.empty.add 0).1 x) ∧
      isRoot ((MyDisjointSet.empty.add 0).1.getitem x).1.HM
        (proot (MyDisjointSet.empty.add 0).1 x) :=
  C9_acyclic_reachable (MyDisjointSet.empty.add 0).1
    (Reachable.add MyDisjointSet.empty 0 Reachable.empty)

/-- C10: for tracked `x` on an invariant-satisfying state, the list
returned by `subset(x)` contains `x` itself and is therefore nonempty. -/
theorem C10_subset_contains_self (s : MyDisjointSet) (x : Nat) (h : s.Inv)
    (hx : x ∈ s.keys) :
    ∃ l, (s.subset x).2 = Except.ok l ∧ x ∈ l ∧ l ≠ [] := by
  obtain ⟨h1, _, _, _, _⟩ := subset_spec s h hx
  have hxl : x ∈ s.keys.filter
      (fun e => decide (proot s e = proot s x)) := by
    rw [List.mem_filter]
    exact ⟨hx, by simp⟩
  exact ⟨_, h1, hxl, List.ne_nil_of_mem hxl⟩

/-- C10 witness: `subset(0)` on the structure tracking 0 and 1 contains 0. -/
theorem C10_witness :
    ((MyDisjointSet.empty.add 0).1.add 1).1.Inv ∧
    0 ∈ ((MyDisjointSet.empty.add 0).1.add 1).1.keys ∧
    ∃ l, ((((MyDisjointSet.empty.add 0).1.add 1).1.subset 0)).2 =
      Except.ok l ∧ 0 ∈ l ∧ l ≠ [] :=
  ⟨by decide, by decide,
    C10_subset_contains_self ((MyDisjointSet.empty.add 0).1.add 1).1 0
      (by decide) (by decide)⟩

end UnionFindSpec
